import Mathlib

/-!
Verification of the recursive JSON path-statistics profiler of
`github.com/willbeason/software-mentions`.

The development shallowly embeds the Go source:

* `pkg/jsonl/sort.go` — the per-path field accumulators (`NullField`,
  `BoolField`, `NumberField`, `StringField`), the enum cap `MaxEnum`,
  the `isIntegral` / `isFloat32` numeric tests, and the `String()`
  renderers;
* `cmd/json-stats/json-stats.go` — the raw value;count profiling mode
  (`addKVs` over `map[string]map[string]int`, path-level cap 100,
  numeric keys formatted with `%f`);
* the accumulator-summary profiling mode (`addKVs` over
  `map[string]jsonl.Field`).

Go `float64` values are represented by their IEEE-754 bit patterns
(natural numbers below `2 ^ 64`); `decodeF64` maps a bit pattern to the
exact rational value it denotes.  On finite (non-NaN, non-infinite)
doubles, Go comparison, equality (including map-key equality) and
`math.Round(f) == f` agree with the corresponding relations on the
denoted rationals, which is how the accumulator code is embedded.
Go maps are embedded as association lists keyed by decidable equality;
map iteration order, which Go does not specify, corresponds to the list
order.
-/

set_option maxRecDepth 8000

namespace SoftwareMentions

/-! ## IEEE-754 binary64 bit-pattern model -/

/-- The sign bit of a float64 bit pattern. -/
def f64Sign (bits : ℕ) : Bool := 2 ^ 63 ≤ bits % 2 ^ 64

/-- The 11-bit biased exponent field of a float64 bit pattern. -/
def f64Exp (bits : ℕ) : ℕ := bits / 2 ^ 52 % 2 ^ 11

/-- The 52-bit fraction field of a float64 bit pattern. -/
def f64Frac (bits : ℕ) : ℕ := bits % 2 ^ 52

/-- A finite float64: the exponent field is not all-ones (which would
denote an infinity or a NaN).  JSON decoding only ever produces finite
doubles. -/
def finiteF64 (bits : ℕ) : Prop := f64Exp bits ≠ 2 ^ 11 - 1

instance (bits : ℕ) : Decidable (finiteF64 bits) := by
  unfold finiteF64; infer_instance

/-- The magnitude denoted by a float64 bit pattern, as an exact
rational: `frac / 2 ^ 1074` for subnormals (biased exponent `0`), and
`(2 ^ 52 + frac) * 2 ^ (exp - 1075)` for normal numbers.  The exponent
arithmetic is split into the three cases so that each branch only takes
small powers of two on concrete inputs.  (`(2 ^ 179) ^ 6 = 2 ^ 1074`.) -/
def f64Mag (bits : ℕ) : ℚ :=
  if f64Exp bits = 0 then
    mkRat (f64Frac bits) ((2 ^ 179) ^ 6)
  else if 1075 ≤ f64Exp bits then
    mkRat ((2 ^ 52 + f64Frac bits) * 2 ^ (f64Exp bits - 1075)) 1
  else
    mkRat (2 ^ 52 + f64Frac bits) (2 ^ (1075 - f64Exp bits))

/-- The exact rational value denoted by a (finite) float64 bit
pattern. -/
def decodeF64 (bits : ℕ) : ℚ :=
  if f64Sign bits then -f64Mag bits else f64Mag bits

/-- Build a bit pattern from sign, biased exponent and fraction; used
to write down concrete doubles. -/
def bitsOf (sign : Bool) (exp frac : ℕ) : ℕ :=
  (if sign then 2 ^ 63 else 0) + exp * 2 ^ 52 + frac

/-! ## `pkg/jsonl/sort.go`: numeric tests -/

/-- `MaxEnum` is the largest number of unique values to track before
not trying to interpret the field as an enum (sort.go). -/
def MaxEnum : ℕ := 20

def Float64FractionLength : ℕ := 52

def Float32FractionLength : ℕ := 23

/-- `Float64Mask = (1 << (Float64FractionLength - Float32FractionLength)) - 1`
(sort.go). -/
def Float64Mask : ℕ := 1 <<< (Float64FractionLength - Float32FractionLength) - 1

/-- `isFloat32` (sort.go): the value uses none of the float64-specific
fraction bits, i.e. the low 29 bits of the bit pattern are all zero.
Takes the bit pattern, exactly as the Go code takes
`math.Float64bits(f)`. -/
def isFloat32 (bits : ℕ) : Bool := bits &&& Float64Mask == 0

/-- `isIntegral` (sort.go): `math.Round(f) == f`.  A finite double is
fixed by rounding exactly when the rational it denotes is an integer,
so on the decoded value the test is `den = 1`. -/
def isIntegral (q : ℚ) : Bool := q.den == 1

/-! ## JSON values

Decoded Go JSON values (`interface{}` trees out of `encoding/json`):
`nil`, `bool`, `float64` (kept as its bit pattern), `string`,
`[]interface{}` and `map[string]interface{}`.  The `other` constructor
stands for a Go value of any further dynamic type (carrying the string
`%T` would print), so the `default` branches of the source are
reachable in the model.  Mutual inductives are used instead of nested
`List` so that the recursive walkers below are structural. -/

mutual

inductive JsonValue where
  | null
  | bool (b : Bool)
  | num (bits : ℕ)
  | str (s : String)
  | arr (elems : JsonArr)
  | obj (fields : JsonObj)
  | other (tyName : String)

inductive JsonArr where
  | nil
  | cons (head : JsonValue) (tail : JsonArr)

inductive JsonObj where
  | nil
  | cons (key : String) (val : JsonValue) (tail : JsonObj)

end

/-- The Go `%T` name of the dynamic type of a decoded JSON value. -/
def goTypeName : JsonValue → String
  | .null => "<nil>"
  | .bool _ => "bool"
  | .num _ => "float64"
  | .str _ => "string"
  | .arr _ => "[]interface \x7b\x7d"
  | .obj _ => "map[string]interface \x7b\x7d"
  | .other t => t

/-! ## Association lists standing for Go maps -/

/-- Lookup in an association list (Go map read `m[k]`, `ok` form). -/
def alookup {κ α : Type} [DecidableEq κ] : List (κ × α) → κ → Option α
  | [], _ => none
  | (k₀, v₀) :: rest, k => if k₀ = k then some v₀ else alookup rest k

/-- Store under a key, replacing an existing binding (Go map write
`m[k] = v`). -/
def astore {κ α : Type} [DecidableEq κ] : List (κ × α) → κ → α → List (κ × α)
  | [], k, v => [(k, v)]
  | (k₀, v₀) :: rest, k, v =>
    if k₀ = k then (k, v) :: rest else (k₀, v₀) :: astore rest k v

/-- Increment a counter under a key (Go `m[k]++`, with missing keys
read as `0`). -/
def aincr {κ : Type} [DecidableEq κ] : List (κ × ℕ) → κ → List (κ × ℕ)
  | [], k => [(k, 1)]
  | (k₀, n) :: rest, k =>
    if k₀ = k then (k₀, n + 1) :: rest else (k₀, n) :: aincr rest k

/-! ## `pkg/jsonl/sort.go`: the field accumulators

Each Go `Add` method mutates its receiver and returns `(Field, error)`.
The embedding turns a method into a function from the receiver state
and the added value to the pair of the receiver state after the call
and the optional error (`fmt.Errorf` messages are the error values,
rendered as strings).  On the error paths the Go methods return before
touching any receiver field, which the embedding states by returning
the input state unchanged. -/

/-- Error text of `fmt.Errorf("unknown type %T added to %T", o, f)`. -/
def addErrMsg (v : JsonValue) (fieldTy : String) : String :=
  "unknown type " ++ goTypeName v ++ " added to " ++ fieldTy

/-- `BoolField` (sort.go): counts of `true` and `false` seen. -/
structure BoolField where
  True : ℕ
  False : ℕ
deriving DecidableEq

/-- `&BoolField{}`: the zero value `NullField.Add` starts from. -/
def freshBoolField : BoolField := ⟨0, 0⟩

/-- `BoolField.Add` (sort.go). -/
def BoolField.Add (f : BoolField) (v : JsonValue) : BoolField × Option String :=
  match v with
  | .bool true => ({ f with True := f.True + 1 }, none)
  | .bool false => ({ f with False := f.False + 1 }, none)
  | o => (f, some (addErrMsg o "*jsonl.BoolField"))

/-- `BoolField.String` (sort.go): `true:<n>;false:<n>`. -/
def BoolField.render (f : BoolField) : String :=
  "true:" ++ toString f.True ++ ";false:" ++ toString f.False

/-- `NumberField` (sort.go): integral and float32-exact flags, running
min and max (finite doubles, represented by the rationals they
denote), and the capped table of distinct values with counts (Go
`map[float64]int`; on finite doubles Go float map-key equality is
equality of the denoted rationals). -/
structure NumberField where
  Integral : Bool
  Float32 : Bool
  Min : ℚ
  Max : ℚ
  Seen : List (ℚ × ℕ)
deriving DecidableEq

/-- `&NumberField{Seen: make(map[float64]int)}`: zero flags, zero
min/max, empty table. -/
def freshNumberField : NumberField := ⟨false, false, 0, 0, []⟩

/-- The `case float64` body of `NumberField.Add` (sort.go), on the bit
pattern of the added double. -/
def NumberField.addNum (f : NumberField) (bits : ℕ) : NumberField :=
  let o := decodeF64 bits
  let g :=
    if 0 < f.Seen.length then
      { f with
        Integral := f.Integral && isIntegral o
        Float32 := f.Float32 && isFloat32 bits
        Min := if o < f.Min then o else f.Min
        Max := if o < f.Min then f.Max else if f.Max < o then o else f.Max }
    else
      { f with
        Integral := isIntegral o
        Float32 := isFloat32 bits
        Min := o
        Max := o }
  if g.Seen.length ≤ MaxEnum then { g with Seen := aincr g.Seen o } else g

/-- `NumberField.Add` (sort.go): dispatch on the dynamic type. -/
def NumberField.Add (f : NumberField) (v : JsonValue) : NumberField × Option String :=
  match v with
  | .num bits => (f.addNum bits, none)
  | o => (f, some (addErrMsg o "*jsonl.NumberField"))

/-- Go `int(f)` conversion of a double: truncation toward zero. -/
def goInt (q : ℚ) : ℤ := Int.tdiv q.num q.den

/-- The width-class cascade at the head of `NumberField.String`
(sort.go), as a function of the fields it reads: if integral and
`Min < 0`, the first of int8/int16/int32/int64 whose `math.MaxIntN`
bound is at or above `Max`; if integral and `Min >= 0`, likewise for
uint8/uint16/uint32/uint64 with `math.MaxUintN`; otherwise float32 or
float64 according to the `Float32` flag. -/
def widthClassOf (integral float32 : Bool) (mn mx : ℚ) : String :=
  if integral then
    if mn < 0 then
      if mx ≤ 127 then "int8"
      else if mx ≤ 32767 then "int16"
      else if mx ≤ 2147483647 then "int32"
      else "int64"
    else
      if mx ≤ 255 then "uint8"
      else if mx ≤ 65535 then "uint16"
      else if mx ≤ 4294967295 then "uint32"
      else "uint64"
  else if float32 then "float32" else "float64"

/-- The width class reported by `NumberField.String` (sort.go). -/
def NumberField.widthClass (f : NumberField) : String :=
  widthClassOf f.Integral f.Float32 f.Min f.Max

/-- `StringField` (sort.go): capped table of distinct strings with
counts. -/
structure StringField where
  Seen : List (String × ℕ)
deriving DecidableEq

/-- `&StringField{Seen: make(map[string]int)}`. -/
def freshStringField : StringField := ⟨[]⟩

/-- The `case string` body of `StringField.Add` (sort.go). -/
def StringField.addStr (f : StringField) (s : String) : StringField :=
  if f.Seen.length ≤ MaxEnum then ⟨aincr f.Seen s⟩ else f

/-- `StringField.Add` (sort.go). -/
def StringField.Add (f : StringField) (v : JsonValue) : StringField × Option String :=
  match v with
  | .str s => (f.addStr s, none)
  | o => (f, some (addErrMsg o "*jsonl.StringField"))

/-- `StringField.String` (sort.go): `enum;<n>;` then `value:count;`
pairs while enumerable, else `string;`. -/
def StringField.render (f : StringField) : String :=
  if f.Seen.length ≤ MaxEnum then
    "enum;" ++ toString f.Seen.length ++ ";"
      ++ String.join (f.Seen.map (fun kv => kv.1 ++ ":" ++ toString kv.2 ++ ";"))
  else
    "string;"

/-- The `jsonl.Field` interface: one of the four accumulator variants.
`NullField` is the struct with no fields. -/
inductive Field where
  | nullF
  | boolF (f : BoolField)
  | numF (f : NumberField)
  | strF (f : StringField)
deriving DecidableEq

/-- The Go `%T` name of a field variant (pointer receiver). -/
def Field.goType : Field → String
  | .nullF => "*jsonl.NullField"
  | .boolF _ => "*jsonl.BoolField"
  | .numF _ => "*jsonl.NumberField"
  | .strF _ => "*jsonl.StringField"

/-- `Field.Add`: `NullField.Add` dispatches on the dynamic type of the
value, builds the minimal concrete accumulator and delegates the same
`Add` to it; the concrete variants run their own `Add`.  The result is
the field stored back by the caller together with the optional
error. -/
def Field.Add : Field → JsonValue → Field × Option String
  | .nullF, v =>
    match v with
    | .bool b =>
      match freshBoolField.Add (.bool b) with
      | (g, none) => (.boolF g, none)
      | (_, some e) => (.nullF, some e)
    | .num bits =>
      match freshNumberField.Add (.num bits) with
      | (g, none) => (.numF g, none)
      | (_, some e) => (.nullF, some e)
    | .str s =>
      match freshStringField.Add (.str s) with
      | (g, none) => (.strF g, none)
      | (_, some e) => (.nullF, some e)
    | o => (.nullF, some (addErrMsg o "*jsonl.NullField"))
  | .boolF f, v => match f.Add v with | (g, e) => (.boolF g, e)
  | .numF f, v => match f.Add v with | (g, e) => (.numF g, e)
  | .strF f, v => match f.Add v with | (g, e) => (.strF g, e)

/-- Go `%f` with default precision: the decimal expansion of the value
with exactly six fraction digits, correctly rounded (ties to even), a
leading `-` for negative values.  Modelled from the spec: `fmt` is Go
standard library, not repository code; this is the documented
fixed-point rendering `strconv.FormatFloat(f, 'f', 6, 64)` that `%f`
performs.  The arithmetic is phrased on numerator and denominator so
that it evaluates. -/
def roundHalfEvenDiv (a d : ℕ) : ℕ :=
  let q := a / d
  let r := a % d
  if 2 * r < d then q
  else if d < 2 * r then q + 1
  else if q % 2 = 0 then q else q + 1

/-- Pad a natural to six digits with leading zeros. -/
def padSix (n : ℕ) : String :=
  let s := toString n
  String.mk (List.replicate (6 - s.length) '0') ++ s

/-- Go `fmt.Sprintf("%f", f)` on the exact value of a finite double. -/
def goFormatF (q : ℚ) : String :=
  let n := roundHalfEvenDiv (q.num.natAbs * 1000000) q.den
  (if q < 0 then "-" else "") ++ toString (n / 1000000) ++ "." ++ padSix (n % 1000000)

/-- Go `fmt.Sprintf("%d", n)`. -/
def goFormatD (n : ℤ) : String := toString n

/-- `NumberField.String` (sort.go): the width class, `;`, min and max
(`%d` of `int(..)` when integral, `%f` otherwise), then — only while
the table is enumerable — `value:count;` pairs in map iteration
order. -/
def NumberField.render (f : NumberField) : String :=
  f.widthClass ++ ";"
    ++ (if f.Integral then goFormatD (goInt f.Min) ++ ";" ++ goFormatD (goInt f.Max)
        else goFormatF f.Min ++ ";" ++ goFormatF f.Max)
    ++ (if f.Seen.length ≤ MaxEnum then
          String.join (f.Seen.map (fun kv =>
            (if f.Integral then goFormatD (goInt kv.1) else goFormatF kv.1)
              ++ ":" ++ toString kv.2 ++ ";"))
        else "")

/-! ## The accumulator-summary profiling mode

`addKVs(path string, obj interface{}, kvs map[string]jsonl.Field)`:
arrays recurse with `path + "[]"`, objects recurse with
`path + "." + key`, anything else is a leaf handed to the field
accumulator at `path` (created as `NullField` on first contact), with
errors propagated unchanged and aborting the walk. -/

abbrev RegB : Type := List (String × Field)

mutual

def addKVsB (path : String) (obj : JsonValue) (kvs : RegB) : Except String RegB :=
  match obj with
  | .arr elems => addKVsBArr (path ++ "[]") elems kvs
  | .obj fields => addKVsBObj path fields kvs
  | leaf =>
    let pathCounts := (alookup kvs path).getD .nullF
    match pathCounts.Add leaf with
    | (_, some e) => .error e
    | (f, none) => .ok (astore kvs path f)

def addKVsBArr (path : String) (elems : JsonArr) (kvs : RegB) : Except String RegB :=
  match elems with
  | .nil => .ok kvs
  | .cons v rest =>
    match addKVsB path v kvs with
    | .error e => .error e
    | .ok kvs2 => addKVsBArr path rest kvs2

def addKVsBObj (path : String) (fields : JsonObj) (kvs : RegB) : Except String RegB :=
  match fields with
  | .nil => .ok kvs
  | .cons k v rest =>
    match addKVsB (path ++ "." ++ k) v kvs with
    | .error e => .error e
    | .ok kvs2 => addKVsBObj path rest kvs2

end

/-- The per-file loop of the summary mode: each decoded document is
walked from the root path `""` into one shared registry. -/
def processB (docs : List JsonValue) : Except String RegB :=
  docs.foldlM (fun kvs d => addKVsB "" d kvs) ([] : RegB)

/-! ## The raw value;count profiling mode (`cmd/json-stats/json-stats.go`)

`addKVs(path string, obj interface{}, kvs map[string]map[string]int)`:
a path whose table already holds more than 100 distinct keys is left
alone entirely (`return nil` before the type switch); otherwise `nil`
leaves are ignored, booleans count under `"true"`/`"false"`, strings
under themselves, numbers under `fmt.Sprintf("%f", o)`, arrays recurse
with `path + "[]"`, objects recurse with `path + key + "."`, any other
type is `ErrUnhandledType`; finally the (possibly fresh, possibly
empty) table is stored back at `path`. -/

abbrev RegA : Type := List (String × List (String × ℕ))

/-- `len(kvs[path])`: a missing entry is the nil map, of length 0. -/
def tableLen (kvs : RegA) (path : String) : ℕ :=
  ((alookup kvs path).getD []).length

mutual

def addKVsA (path : String) (obj : JsonValue) (kvs : RegA) : Except String RegA :=
  if 100 < tableLen kvs path then .ok kvs
  else
    let pathCounts := (alookup kvs path).getD []
    match obj with
    | .null => .ok (astore kvs path pathCounts)
    | .bool b => .ok (astore kvs path (aincr pathCounts (if b then "true" else "false")))
    | .str s => .ok (astore kvs path (aincr pathCounts s))
    | .num bits => .ok (astore kvs path (aincr pathCounts (goFormatF (decodeF64 bits))))
    | .arr elems =>
      match addKVsAArr (path ++ "[]") elems kvs with
      | .error e => .error e
      | .ok kvs2 => .ok (astore kvs2 path pathCounts)
    | .obj fields =>
      match addKVsAObj path fields kvs with
      | .error e => .error e
      | .ok kvs2 => .ok (astore kvs2 path pathCounts)
    | .other t => .error ("unhandled type: " ++ t)

def addKVsAArr (path : String) (elems : JsonArr) (kvs : RegA) : Except String RegA :=
  match elems with
  | .nil => .ok kvs
  | .cons v rest =>
    match addKVsA path v kvs with
    | .error e => .error e
    | .ok kvs2 => addKVsAArr path rest kvs2

def addKVsAObj (path : String) (fields : JsonObj) (kvs : RegA) : Except String RegA :=
  match fields with
  | .nil => .ok kvs
  | .cons k v rest =>
    match addKVsA (path ++ k ++ ".") v kvs with
    | .error e => .error e
    | .ok kvs2 => addKVsAObj path rest kvs2

end

/-- The per-file loop of the raw mode: each document is walked from
the root path `"."`. -/
def processA (docs : List JsonValue) : Except String RegA :=
  docs.foldlM (fun kvs d => addKVsA "." d kvs) ([] : RegA)

/-- Containers recurse in the walkers; anything else is a leaf. -/
def isContainer : JsonValue → Bool
  | .arr _ => true
  | .obj _ => true
  | _ => false

/-- The bit pattern of the double `1.0`. -/
def bitsOne : ℕ := bitsOf false 1023 0

/-- The bit pattern of the double written `1.0000001` (the closest
double to it, `1 + 450359963 / 2 ^ 52 ≈ 1.00000010000000005838`). -/
def bitsOnePlus1e7 : ℕ := bitsOf false 1023 450359963

/-- The bit pattern of the double `-1000.0`. -/
def bitsNeg1000 : ℕ := bitsOf true 1032 (1000 * 2 ^ 43 - 2 ^ 52)

/-- A raw-mode registry whose table at path `"capped"` already holds
101 distinct keys. -/
def cap101Reg : RegA :=
  [("capped", (List.range 101).map (fun i => (toString i, 1)))]

/-- The two documents `{"a": true}` and `{"a": "x"}`: the second sees
path `.a` concretized as Boolean and aborts the summary-mode run. -/
def mismatchDocs : List JsonValue :=
  [.obj (.cons "a" (.bool true) .nil), .obj (.cons "a" (.str "x") .nil)]

/-- 21 distinct strings `v0 .. v20`. -/
def strs21 : List String := (List.range 21).map (fun i => "v" ++ toString i)

/-- The Textual accumulator after the 21 distinct strings of `strs21`:
its enum table has just crossed the cap. -/
def strField21 : StringField := List.foldl StringField.addStr freshStringField strs21

/-- A Numeric accumulator state whose enum table holds 21 distinct
keys. -/
def numField21 : NumberField :=
  ⟨true, false, 0, 20, (List.range 21).map (fun i => (mkRat i 1, 1))⟩

/-- The Numeric accumulator after adding `-1000.0` then `0.0`. -/
def nfNeg : NumberField := (freshNumberField.addNum bitsNeg1000).addNum 0

/-- From the spec words of the amended C1: the smallest of
int8/int16/int32/int64 whose `math.MaxIntN` upper bound covers `mx`
(int64 when none does); the lower bound — and hence `min` — is not
consulted. -/
def smallestSignedByMax (mx : ℚ) : String :=
  if mx ≤ 127 then "int8"
  else if mx ≤ 32767 then "int16"
  else if mx ≤ 2147483647 then "int32"
  else "int64"

/-- From the spec words: the smallest of uint8/uint16/uint32/uint64
whose `math.MaxUintN` bound covers `mx` (uint64 when none does). -/
def smallestUnsignedByMax (mx : ℚ) : String :=
  if mx ≤ 255 then "uint8"
  else if mx ≤ 65535 then "uint16"
  else if mx ≤ 4294967295 then "uint32"
  else "uint64"

/-- The lower end of a width-class range (0 for the unsigned
classes). -/
def classLo : String → ℚ
  | "int8" => -128
  | "int16" => -32768
  | "int32" => -2147483648
  | "int64" => -9223372036854775808
  | _ => 0

/-- The upper end of a width-class range. -/
def classHi : String → ℚ
  | "int8" => 127
  | "int16" => 32767
  | "int32" => 2147483647
  | "int64" => 9223372036854775807
  | "uint8" => 255
  | "uint16" => 65535
  | "uint32" => 4294967295
  | _ => 18446744073709551615

/-- The bit pattern of the double `0.5`. -/
def bitsHalf : ℕ := bitsOf false 1022 0

/-- The bit pattern of the double written `0.1`: the closest double to
`1/10` (`decodeF64_tenth_nearest` proves the closeness). -/
def bitsTenth : ℕ := bitsOf false 1019 2702159776422298

/-- The bit pattern of the double `16777217.0`, that is `2 ^ 24 + 1`. -/
def bitsTwoPow24PlusOne : ℕ := bitsOf false 1047 (2 ^ 28)

/-- The bit pattern of the double `2 ^ 200`, far beyond the float32
exponent range. -/
def bitsTwoPow200 : ℕ := bitsOf false 1223 0

/-- The magnitude numerator over the common denominator `2 ^ 1075`. -/
def f64MagNum (bits : ℕ) : ℕ :=
  if f64Exp bits = 0 then 2 * f64Frac bits
  else (2 ^ 52 + f64Frac bits) * 2 ^ f64Exp bits

/-! ## Bridging lemmas for the float64 model -/

theorem f64Mag_eq_div (b : ℕ) : f64Mag b = (f64MagNum b : ℚ) / 2 ^ 1075 := by
  unfold f64Mag f64MagNum
  split_ifs with h0 h75
  · rw [Rat.mkRat_eq_div]
    rw [show (((2 ^ 179 : ℕ) ^ 6 : ℕ) : ℚ) = 2 ^ 1074 from by
      rw [Nat.cast_pow, Nat.cast_pow, Nat.cast_ofNat, ← pow_mul]]
    rw [div_eq_div_iff (by positivity) (by positivity),
      show (2 : ℚ) ^ 1075 = 2 ^ 1074 * 2 from by rw [← pow_succ]]
    push_cast
    ring
  · rw [Rat.mkRat_eq_div]
    push_cast
    obtain ⟨k, hk⟩ : ∃ k, f64Exp b = k + 1075 := ⟨f64Exp b - 1075, by omega⟩
    rw [hk, Nat.add_sub_cancel, pow_add, div_one, eq_div_iff (by positivity)]
    ring
  · rw [Rat.mkRat_eq_div]
    push_cast
    rw [div_eq_div_iff (by positivity) (by positivity), mul_assoc, ← pow_add,
      show f64Exp b + (1075 - f64Exp b) = 1075 from by omega]

theorem f64Mag_nonneg (b : ℕ) : 0 ≤ f64Mag b := by
  rw [f64Mag_eq_div]; positivity

/-- Every decoded double is a dyadic rational: there is no float64 bit
pattern denoting `1/10` exactly. -/
theorem decodeF64_ne_tenth (b : ℕ) : decodeF64 b ≠ 1 / 10 := by
  intro h
  have hmag : f64Mag b = 1 / 10 := by
    unfold decodeF64 at h
    split_ifs at h with hs
    · nlinarith [f64Mag_nonneg b]
    · exact h
  rw [f64Mag_eq_div] at hmag
  rw [div_eq_div_iff (by positivity) (by norm_num), one_mul] at hmag
  have hnat : f64MagNum b * 10 = 2 ^ 1075 := by exact_mod_cast hmag
  have h5 : (5 : ℕ) ∣ 2 ^ 1075 := hnat ▸ ⟨f64MagNum b * 2, by ring⟩
  have : (5 : ℕ) ∣ 2 := Nat.Prime.dvd_of_dvd_pow (by norm_num) h5
  omega

/-- A pattern with biased exponent at least `1019` denotes an integer
multiple of `2 ^ (-56)`. -/
theorem decodeF64_grid (b : ℕ) (h : 1019 ≤ f64Exp b) :
    ∃ m : ℤ, decodeF64 b = (m : ℚ) / 2 ^ 56 := by
  have hmag : f64Mag b = (((2 ^ 52 + f64Frac b) * 2 ^ (f64Exp b - 1019) : ℕ) : ℚ) / 2 ^ 56 := by
    rw [f64Mag_eq_div]
    unfold f64MagNum
    rw [if_neg (by omega)]
    rw [div_eq_div_iff (by positivity) (by positivity)]
    push_cast
    obtain ⟨k, hk⟩ : ∃ k, f64Exp b = k + 1019 := ⟨f64Exp b - 1019, by omega⟩
    rw [hk, Nat.add_sub_cancel, pow_add,
      show (2 : ℚ) ^ 1075 = 2 ^ 1019 * 2 ^ 56 from by rw [← pow_add]]
    ring
  unfold decodeF64
  split_ifs with hs
  · exact ⟨-((2 ^ 52 + f64Frac b) * 2 ^ (f64Exp b - 1019) : ℕ), by rw [hmag]; push_cast; ring⟩
  · exact ⟨((2 ^ 52 + f64Frac b) * 2 ^ (f64Exp b - 1019) : ℕ), by rw [hmag]; push_cast; ring⟩

/-- A pattern with biased exponent at most `1018` denotes a value of
magnitude below `1/16`. -/
theorem decodeF64_small (b : ℕ) (h : f64Exp b ≤ 1018) : |decodeF64 b| < 1 / 16 := by
  have habs : |decodeF64 b| = f64Mag b := by
    unfold decodeF64
    split_ifs
    · rw [abs_neg]; exact abs_of_nonneg (f64Mag_nonneg b)
    · exact abs_of_nonneg (f64Mag_nonneg b)
  rw [habs, f64Mag_eq_div, div_lt_iff (by positivity)]
  have hfrac : f64Frac b < 2 ^ 52 := Nat.mod_lt _ (by positivity)
  have hnat : f64MagNum b < 2 ^ 1071 := by
    unfold f64MagNum
    split_ifs
    · calc 2 * f64Frac b < 2 * 2 ^ 52 := by omega
        _ ≤ 2 ^ 1071 := by norm_num
    · calc (2 ^ 52 + f64Frac b) * 2 ^ f64Exp b < 2 ^ 53 * 2 ^ f64Exp b := by
            have hp : (0 : ℕ) < 2 ^ f64Exp b := by positivity
            exact (Nat.mul_lt_mul_right hp).mpr (by omega)
        _ ≤ 2 ^ 53 * 2 ^ 1018 := Nat.mul_le_mul_left _ (Nat.pow_le_pow_right (by omega) h)
        _ = 2 ^ 1071 := by rw [← pow_add]
  calc (f64MagNum b : ℚ) < ((2 ^ 1071 : ℕ) : ℚ) := by exact_mod_cast hnat
    _ = 1 / 16 * 2 ^ 1075 := by
        rw [show (2 : ℚ) ^ 1075 = 2 ^ 4 * 2 ^ 1071 from by rw [← pow_add]]
        push_cast
        ring

/-- `7205759403792794 / 2 ^ 56` is the closest multiple of `2 ^ (-56)`
to `1/10`. -/
theorem tenth_grid_min (m : ℤ) :
    |1 / 10 - (7205759403792794 : ℚ) / 2 ^ 56| ≤ |1 / 10 - (m : ℚ) / 2 ^ 56| := by
  have hD : (0 : ℚ) < 10 * 2 ^ 56 := by positivity
  have key : (1 : ℚ) / 10 - (m : ℚ) / 2 ^ 56 =
      ((72057594037927936 - 10 * m : ℤ) : ℚ) / (10 * 2 ^ 56) := by
    push_cast
    field_simp
    ring
  have keyc : (1 : ℚ) / 10 - (7205759403792794 : ℚ) / 2 ^ 56 = -(4 / (10 * 2 ^ 56)) := by
    norm_num
  rw [key, keyc, abs_neg, abs_of_pos (by positivity), abs_div,
    abs_of_pos hD]
  have hZ : (4 : ℤ) ≤ |72057594037927936 - 10 * m| := by
    rcases abs_cases (72057594037927936 - 10 * m) with ⟨h1, _⟩ | ⟨h1, _⟩ <;> omega
  have hQ : (4 : ℚ) ≤ |((72057594037927936 - 10 * m : ℤ) : ℚ)| := by exact_mod_cast hZ
  exact (div_le_div_right hD).mpr hQ

/-- `bitsTenth` is a (the) nearest double to `1/10`. -/
theorem decodeF64_tenth_nearest (b : ℕ) :
    |1 / 10 - decodeF64 bitsTenth| ≤ |1 / 10 - decodeF64 b| := by
  have hT : decodeF64 bitsTenth = (7205759403792794 : ℚ) / 2 ^ 56 := by
    have h1 : decodeF64 bitsTenth = mkRat 7205759403792794 (2 ^ 56) := by decide
    rw [h1, Rat.mkRat_eq_div]
    norm_num
  rcases le_or_lt (f64Exp b) 1018 with hsm | hgr
  · have h1 := decodeF64_small b hsm
    have hb1 : decodeF64 b < 1 / 16 := (abs_lt.mp h1).2
    have hLHS : |1 / 10 - decodeF64 bitsTenth| ≤ 3 / 80 := by
      rw [hT, abs_le]
      constructor <;> norm_num
    have hRHS : (3 : ℚ) / 80 ≤ |1 / 10 - decodeF64 b| := by
      rw [abs_of_pos (by linarith)]
      linarith
    linarith
  · obtain ⟨m, hm⟩ := decodeF64_grid b (by omega)
    rw [hm, hT]
    exact tenth_grid_min m

/-- `isFloat32` is the low-29-bit test on the bit pattern. -/
theorem isFloat32_eq_decide (b : ℕ) : isFloat32 b = decide (b % 2 ^ 29 = 0) := by
  have hmask : Float64Mask = 2 ^ 29 - 1 := by
    unfold Float64Mask Float64FractionLength Float32FractionLength
    rw [Nat.shiftLeft_eq, one_mul]
  rw [isFloat32, hmask, Nat.and_pow_two_sub_one_eq_mod]
  cases h : decide (b % 2 ^ 29 = 0) <;> simp_all

/-- Claim C4: the float32-exactness test (low-29-bit mask of the
float64 bit pattern) returns true for `0.5`, false for `0.1` (no
double denotes `1/10` exactly; `bitsTenth` is a nearest double to
`1/10` and fails the test), and false for `16777217.0` (`2 ^ 24 + 1`)
even though that value is integral; and it returns true for any bit
pattern whose low 29 bits are zero regardless of whether the exponent
fits in float32 (witnessed by the double `2 ^ 200`, which is far above
the float32 range yet reported float32-safe). -/
theorem C4_isFloat32_bitmask_test :
    (isFloat32 bitsHalf = true ∧ decodeF64 bitsHalf = 1 / 2)
    ∧ (isFloat32 bitsTenth = false
       ∧ (∀ b : ℕ, decodeF64 b ≠ 1 / 10)
       ∧ (∀ b : ℕ, |1 / 10 - decodeF64 bitsTenth| ≤ |1 / 10 - decodeF64 b|))
    ∧ (isFloat32 bitsTwoPow24PlusOne = false
       ∧ decodeF64 bitsTwoPow24PlusOne = 16777217
       ∧ isIntegral (decodeF64 bitsTwoPow24PlusOne) = true)
    ∧ (∀ b : ℕ, isFloat32 b = decide (b % 2 ^ 29 = 0))
    ∧ (isFloat32 bitsTwoPow200 = true
       ∧ ((2 ^ 128 : ℕ) : ℚ) ≤ decodeF64 bitsTwoPow200) := by
  refine ⟨⟨by decide, ?_⟩, ⟨by decide, decodeF64_ne_tenth, decodeF64_tenth_nearest⟩,
    ⟨by decide, by decide, by decide⟩, isFloat32_eq_decide, by decide, by decide⟩
  rw [show decodeF64 bitsHalf = mkRat 1 2 from by decide, Rat.mkRat_eq_div]
  norm_num

/-! ## Claims about the raw value;count walker -/

/-- Claim C9: in the per-path-cap profiling mode, once a path has more
than 100 distinct recorded values, every further `addKVs` call for
that path is a complete no-op — nothing recorded, no recursion into
children, no error — whatever the value (container, unhandled type or
leaf). -/
theorem C9_path_cap_noop (path : String) (obj : JsonValue) (kvs : RegA)
    (h : 100 < tableLen kvs path) : addKVsA path obj kvs = .ok kvs := by
  unfold addKVsA
  rw [if_pos h]

/-- Witness for C9 at a registry with 101 keys recorded under the
path, with a value of unhandled dynamic type (which would error were
the path not capped). -/
theorem C9_path_cap_noop_witness :
    addKVsA "capped" (.other "chan int") cap101Reg = .ok cap101Reg :=
  C9_path_cap_noop "capped" (.other "chan int") cap101Reg (by decide)

/-- Claim C10: in the raw value;count mode a numeric leaf is recorded
under the `%f` rendering of the double — six fixed fraction digits —
so the distinct doubles `1.0` and (the double closest to) `1.0000001`
are both recorded under the single key `"1.000000"`, and the integral
value `1.0` appears as `"1.000000"`, not `"1"`. -/
theorem C10_numeric_six_digit_keys :
    (∀ (path : String) (bits : ℕ) (kvs : RegA), tableLen kvs path ≤ 100 →
      addKVsA path (.num bits) kvs =
        .ok (astore kvs path
          (aincr ((alookup kvs path).getD []) (goFormatF (decodeF64 bits)))))
    ∧ decodeF64 bitsOne ≠ decodeF64 bitsOnePlus1e7
    ∧ processA [.obj (.cons "x" (.num bitsOne) .nil),
        .obj (.cons "x" (.num bitsOnePlus1e7) .nil)] =
        .ok [(".x.", [("1.000000", 2)]), (".", [])]
    ∧ goFormatF (decodeF64 bitsOne) = "1.000000" := by
  refine ⟨?_, by decide, rfl, by decide⟩
  intro path bits kvs h
  unfold addKVsA
  rw [if_neg (by omega)]

/-- Witness for C10 at an empty registry. -/
theorem C10_numeric_six_digit_keys_witness :
    addKVsA "." (.num bitsOne) [] = .ok [(".", [("1.000000", 1)])] := by
  have h := C10_numeric_six_digit_keys.1 "." bitsOne [] (by decide)
  rw [h]
  rfl

/-! ## Claim about error contents -/

/-- Claim C3 counterexample: a type-mismatch run aborts with the error
`unknown type string added to *jsonl.BoolField`, whose text does not
contain the offending path `.a` — the error carries the two dynamic
types but not the path. -/
theorem C3_counterexample :
    processB mismatchDocs = .error "unknown type string added to *jsonl.BoolField"
    ∧ ¬ (".a".toList <:+: ("unknown type string added to *jsonl.BoolField").toList) := by
  exact ⟨rfl, by decide⟩

/-- The error value of any failing `Add` is the message built from the
dynamic type of the value and the `%T` name of the receiving
accumulator; nothing else (in particular no path) enters it. -/
theorem Field.Add_error_eq (f : Field) (v : JsonValue) (e : String)
    (h : (Field.Add f v).2 = some e) : e = addErrMsg v f.goType := by
  have hb : ∀ (bf : BoolField) (b : Bool), bf.Add (.bool b) =
      (⟨if b then bf.True + 1 else bf.True, if b then bf.False else bf.False + 1⟩, none) := by
    intro bf b
    cases b <;> rfl
  cases f <;> cases v <;>
    simp_all [Field.Add, BoolField.Add, NumberField.Add, StringField.Add, Field.goType]
  all_goals
    rename_i b
    cases b <;> simp_all

/-- A leaf hitting the summary-mode walker produces exactly the
`Field.Add` outcome for the accumulator stored at the path. -/
theorem addKVsB_leaf (path : String) (v : JsonValue) (kvs : RegB)
    (hw : isContainer v = false) :
    addKVsB path v kvs =
      (match ((alookup kvs path).getD .nullF).Add v with
        | (_, some err) => .error err
        | (g, none) => .ok (astore kvs path g)) := by
  cases v <;> first
    | rfl
    | simp [isContainer] at hw

/-- Claim C3 (amended): an accumulation-phase error carries the
offending value dynamic type and the receiving accumulator type — it
is exactly `unknown type <valueType> added to <fieldType>` — and no
path: the error a leaf produces is a function of the stored field and
the value alone, independent of the path at which the value
occurred. -/
theorem C3_amended_errors_carry_types_not_path :
    (∀ (f : Field) (v : JsonValue) (e : String),
      (Field.Add f v).2 = some e → e = addErrMsg v f.goType)
    ∧ (∀ (path : String) (v : JsonValue) (kvs : RegB) (e : String),
        isContainer v = false → addKVsB path v kvs = .error e →
        e = addErrMsg v ((alookup kvs path).getD .nullF).goType) := by
  refine ⟨Field.Add_error_eq, ?_⟩
  intro path v kvs e hleaf h
  rw [addKVsB_leaf path v kvs hleaf] at h
  rcases h2 : ((alookup kvs path).getD .nullF).Add v with ⟨g, e'⟩
  rw [h2] at h
  cases e' with
  | none => exact absurd h (by simp)
  | some e2 =>
    simp at h
    subst h
    exact Field.Add_error_eq _ _ _ (by rw [h2])

/-- Witness for the amended C3 at the concrete mismatch: a string
added to a Boolean accumulator. -/
theorem C3_amended_witness :
    "unknown type string added to *jsonl.BoolField" =
      addErrMsg (.str "x") (Field.boolF ⟨1, 0⟩).goType :=
  C3_amended_errors_carry_types_not_path.1 (.boolF ⟨1, 0⟩) (.str "x") _ (by decide)

/-! ## Enum-table lemmas -/

theorem aincr_length_le {κ : Type} [DecidableEq κ] (m : List (κ × ℕ)) (k : κ) :
    (aincr m k).length ≤ m.length + 1 := by
  induction m with
  | nil => simp [aincr]
  | cons hd tl ih =>
    rcases hd with ⟨k₀, n⟩
    unfold aincr
    split_ifs <;> simp <;> omega

theorem aincr_length_new {κ : Type} [DecidableEq κ] (m : List (κ × ℕ)) (k : κ)
    (h : alookup m k = none) : (aincr m k).length = m.length + 1 := by
  induction m with
  | nil => simp [aincr]
  | cons hd tl ih =>
    rcases hd with ⟨k₀, n⟩
    unfold aincr
    unfold alookup at h
    split_ifs with he
    · rw [if_pos he] at h
      exact absurd h (by simp)
    · rw [if_neg he] at h
      simp [ih h]

theorem aincr_ne_nil {κ : Type} [DecidableEq κ] (m : List (κ × ℕ)) (k : κ) :
    aincr m k ≠ [] := by
  cases m with
  | nil => simp [aincr]
  | cons hd tl =>
    rcases hd with ⟨k₀, n⟩
    unfold aincr
    split_ifs <;> simp

/-- The enum table of a Numeric accumulator after one `Add`: grown by
the size-capped insert, exactly as the code guard reads. -/
theorem NumberField.addNum_Seen (f : NumberField) (b : ℕ) :
    (f.addNum b).Seen =
      if f.Seen.length ≤ MaxEnum then aincr f.Seen (decodeF64 b) else f.Seen := by
  unfold NumberField.addNum
  by_cases h1 : 0 < f.Seen.length <;> by_cases h2 : f.Seen.length ≤ MaxEnum <;>
    simp [h1, h2]

/-- Inserting while at most `MaxEnum` keys are present. -/
theorem StringField.addStr_eq (f : StringField) (s : String) :
    f.addStr s = if f.Seen.length ≤ MaxEnum then ⟨aincr f.Seen s⟩ else f := rfl

theorem numSeen_card_invariant (l : List ℕ) : ∀ (f : NumberField),
    f.Seen.length ≤ MaxEnum + 1 →
    (List.foldl NumberField.addNum f l).Seen.length ≤ MaxEnum + 1 := by
  induction l with
  | nil => intro f h; simpa
  | cons b t ih =>
    intro f h
    rw [List.foldl_cons]
    apply ih
    rw [NumberField.addNum_Seen]
    split_ifs with hle
    · calc (aincr f.Seen (decodeF64 b)).length ≤ f.Seen.length + 1 := aincr_length_le _ _
        _ ≤ MaxEnum + 1 := by omega
    · exact h

theorem strSeen_card_invariant (l : List String) : ∀ (f : StringField),
    f.Seen.length ≤ MaxEnum + 1 →
    (List.foldl StringField.addStr f l).Seen.length ≤ MaxEnum + 1 := by
  induction l with
  | nil => intro f h; simpa
  | cons s t ih =>
    intro f h
    rw [List.foldl_cons]
    apply ih
    rw [StringField.addStr_eq]
    split_ifs with hle
    · calc (aincr f.Seen s).length ≤ f.Seen.length + 1 := aincr_length_le _ _
        _ ≤ MaxEnum + 1 := by omega
    · exact h

/-- Claim C5: for Numeric and Textual accumulators the enum table
never exceeds `MaxEnum + 1 = 21` distinct keys under any sequence of
successful Adds from fresh; the size check precedes insertion, so the
table reaches exactly `MaxEnum + 1` keys at the crossing Add (a new
key arriving with the table at `MaxEnum` keys), and from then on no
Add changes the table at all. -/
theorem C5_enum_table_cap :
    (∀ l : List ℕ, (List.foldl NumberField.addNum freshNumberField l).Seen.length ≤ MaxEnum + 1)
    ∧ (∀ l : List String,
        (List.foldl StringField.addStr freshStringField l).Seen.length ≤ MaxEnum + 1)
    ∧ (∀ (f : NumberField) (b : ℕ), f.Seen.length = MaxEnum →
        alookup f.Seen (decodeF64 b) = none → (f.addNum b).Seen.length = MaxEnum + 1)
    ∧ (∀ (f : StringField) (s : String), f.Seen.length = MaxEnum →
        alookup f.Seen s = none → (f.addStr s).Seen.length = MaxEnum + 1)
    ∧ (∀ (f : NumberField) (b : ℕ), MaxEnum < f.Seen.length → (f.addNum b).Seen = f.Seen)
    ∧ (∀ (f : StringField) (s : String), MaxEnum < f.Seen.length → f.addStr s = f) := by
  refine ⟨fun l => numSeen_card_invariant l _ (by simp [freshNumberField]),
    fun l => strSeen_card_invariant l _ (by simp [freshStringField]),
    fun f b hlen hnew => ?_, fun f s hlen hnew => ?_,
    fun f b hgt => ?_, fun f s hgt => ?_⟩
  · rw [NumberField.addNum_Seen, if_pos (by omega), aincr_length_new _ _ hnew, hlen]
  · rw [StringField.addStr_eq, if_pos (by omega)]
    exact (aincr_length_new _ _ hnew).trans (by rw [hlen])
  · rw [NumberField.addNum_Seen, if_neg (by omega)]
  · rw [StringField.addStr_eq, if_neg (by omega)]

/-- Witness for C5: an empty run, the crossing Add on concrete
21-and-20-key tables, and the frozen behaviour at 21 keys. -/
theorem C5_enum_table_cap_witness :
    (List.foldl NumberField.addNum freshNumberField []).Seen.length ≤ MaxEnum + 1
    ∧ (numField21.addNum bitsOne).Seen = numField21.Seen
    ∧ strField21.addStr "w" = strField21 :=
  ⟨C5_enum_table_cap.1 [], C5_enum_table_cap.2.2.2.2.1 numField21 bitsOne (by decide),
    C5_enum_table_cap.2.2.2.2.2 strField21 "w" (by decide)⟩

/-- Claim C2 counterexample: after the 21 distinct strings
`v0 .. v20` (more than `MaxEnum` distinct values observed), adding the
already-present value `v0` does not increment its count — the whole
accumulator is left unchanged, count still 1 — refuting the claim that
counts of already-present values keep incrementing. -/
theorem C2_counterexample :
    strField21.Seen.length = MaxEnum + 1
    ∧ alookup strField21.Seen "v0" = some 1
    ∧ strField21.addStr "v0" = strField21
    ∧ alookup (strField21.addStr "v0").Seen "v0" = some 1 := by
  refine ⟨by decide, by decide, by decide, by decide⟩

/-- Claim C2 (amended): once more than `MaxEnum` distinct values have
been observed (the table holds more than `MaxEnum` keys), a subsequent
Add leaves the enum table entirely unchanged — no new key is admitted
and no existing count is incremented.  Counts increment exactly while
the table still has at most `MaxEnum` keys. -/
theorem C2_enum_freeze_amended :
    (∀ (f : StringField) (s : String), MaxEnum < f.Seen.length →
      f.addStr s = f)
    ∧ (∀ (f : NumberField) (b : ℕ), MaxEnum < f.Seen.length →
      (f.addNum b).Seen = f.Seen)
    ∧ (∀ (f : StringField) (s : String), f.Seen.length ≤ MaxEnum →
      (f.addStr s).Seen = aincr f.Seen s)
    ∧ (∀ (f : NumberField) (b : ℕ), f.Seen.length ≤ MaxEnum →
      (f.addNum b).Seen = aincr f.Seen (decodeF64 b)) := by
  refine ⟨fun f s h => ?_, fun f b h => ?_, fun f s h => ?_, fun f b h => ?_⟩
  · rw [StringField.addStr_eq, if_neg (by omega)]
  · rw [NumberField.addNum_Seen, if_neg (by omega)]
  · rw [StringField.addStr_eq, if_pos h]
  · rw [NumberField.addNum_Seen, if_pos h]

/-- Witness for the amended C2 at the concrete 21-key accumulators. -/
theorem C2_enum_freeze_amended_witness :
    strField21.addStr "v0" = strField21
    ∧ (numField21.addNum bitsOne).Seen = numField21.Seen :=
  ⟨C2_enum_freeze_amended.1 strField21 "v0" (by decide),
    C2_enum_freeze_amended.2.1 numField21 bitsOne (by decide)⟩

/-! ## Claims C8 and C1 -/

/-- Claim C8: for each concretized accumulator variant, `Add(v)`
errors exactly when the dynamic type of `v` does not match the
variant; on error the receiver state is untouched; a concretized
variant never changes kind; and a successful Boolean Add increments
exactly one of `True` and `False`. -/
theorem C8_add_type_discipline :
    (∀ (f : BoolField) (v : JsonValue), (f.Add v).2 = none ↔ ∃ b, v = .bool b)
    ∧ (∀ (f : NumberField) (v : JsonValue), (f.Add v).2 = none ↔ ∃ bits, v = .num bits)
    ∧ (∀ (f : StringField) (v : JsonValue), (f.Add v).2 = none ↔ ∃ s, v = .str s)
    ∧ (∀ (f : BoolField) (v : JsonValue), (f.Add v).2 ≠ none → (f.Add v).1 = f)
    ∧ (∀ (f : NumberField) (v : JsonValue), (f.Add v).2 ≠ none → (f.Add v).1 = f)
    ∧ (∀ (f : StringField) (v : JsonValue), (f.Add v).2 ≠ none → (f.Add v).1 = f)
    ∧ (∀ (f : Field) (v : JsonValue), f ≠ .nullF → (Field.Add f v).1.goType = f.goType)
    ∧ (∀ (f : BoolField) (b : Bool),
        ((f.Add (.bool b)).1.True = f.True + 1 ∧ (f.Add (.bool b)).1.False = f.False)
        ∨ ((f.Add (.bool b)).1.True = f.True ∧ (f.Add (.bool b)).1.False = f.False + 1)) := by
  refine ⟨fun f v => ?_, fun f v => ?_, fun f v => ?_, fun f v h => ?_, fun f v h => ?_,
    fun f v h => ?_, fun f v h => ?_, fun f b => ?_⟩
  · cases v <;> simp [BoolField.Add]
    rename_i b
    cases b <;> simp [BoolField.Add]
  · cases v <;> simp [NumberField.Add]
  · cases v <;> simp [StringField.Add]
  · cases v <;> simp_all [BoolField.Add]
    rename_i b
    cases b <;> simp_all [BoolField.Add]
  · cases v <;> simp_all [NumberField.Add]
  · cases v <;> simp_all [StringField.Add]
  · cases f <;> simp_all [Field.goType] <;> cases v <;>
      simp [Field.Add, BoolField.Add, NumberField.Add, StringField.Add, Field.goType]
  · cases b <;> simp [BoolField.Add]

/-- Witness for C8: a string rejected by a Boolean accumulator leaves
it unchanged; a Boolean accumulator keeps its kind across an Add; a
boolean is accepted. -/
theorem C8_add_type_discipline_witness :
    (freshBoolField.Add (.str "x")).1 = freshBoolField
    ∧ (Field.Add (.boolF ⟨2, 3⟩) (.num bitsOne)).1.goType = (Field.boolF ⟨2, 3⟩).goType
    ∧ (freshBoolField.Add (.bool true)).2 = none :=
  ⟨C8_add_type_discipline.2.2.2.1 freshBoolField (.str "x") (by decide),
    C8_add_type_discipline.2.2.2.2.2.2.1 (.boolF ⟨2, 3⟩) (.num bitsOne) (by decide),
    (C8_add_type_discipline.1 freshBoolField (.bool true)).mpr ⟨true, rfl⟩⟩

/-- Claim C1 counterexample: the accumulator reached by adding
`-1000.0` then `0.0` is integral with `min = -1000 < 0` and `max = 0`;
`String()` reports width class `int8` (`Max <= math.MaxInt8` is all
the code checks), yet `-1000` is far below the int8 lower bound
`-128`: the reported class does not cover `min`, refuting the
smallest-covering-class reading. -/
theorem C1_counterexample :
    nfNeg.Integral = true ∧ nfNeg.Min = -1000 ∧ nfNeg.Max = 0
    ∧ nfNeg.widthClass = "int8"
    ∧ nfNeg.render = "int8;-1000;0-1000:1;0:1;"
    ∧ nfNeg.Min < classLo "int8" := by
  refine ⟨by decide, by decide, by decide, by decide, by decide, by decide⟩

/-- Claim C1 (amended): the width class is derived from the integral
flag, the sign of `min`, and `max` alone — the smallest
signed/unsigned class whose upper bound covers `max`, saturating at 64
bits; `min` (and an over-64-bit `max`) may lie outside the reported
range.  In the unsigned case with `max` within the uint64 range, both
`min` and `max` do lie in the reported range. -/
theorem C1_width_class_from_max_amended :
    (∀ f : NumberField, f.Integral = true → f.Min < 0 →
      f.widthClass = smallestSignedByMax f.Max)
    ∧ (∀ f : NumberField, f.Integral = true → 0 ≤ f.Min →
      f.widthClass = smallestUnsignedByMax f.Max)
    ∧ (∀ f : NumberField, f.Integral = true → 0 ≤ f.Min → f.Min ≤ f.Max →
        f.Max ≤ 18446744073709551615 →
        classLo f.widthClass ≤ f.Min ∧ f.Max ≤ classHi f.widthClass) := by
  refine ⟨fun f hI hm => ?_, fun f hI hm => ?_, fun f hI h0 hmm hmax => ?_⟩
  · unfold NumberField.widthClass widthClassOf smallestSignedByMax
    rw [if_pos hI, if_pos hm]
  · unfold NumberField.widthClass widthClassOf smallestUnsignedByMax
    rw [if_pos hI, if_neg (not_lt.mpr hm)]
  · unfold NumberField.widthClass widthClassOf
    rw [if_pos hI, if_neg (not_lt.mpr h0)]
    split_ifs with h1 h2 h3
    · exact ⟨by rw [show classLo "uint8" = (0 : ℚ) from rfl]; linarith,
        by rw [show classHi "uint8" = (255 : ℚ) from rfl]; linarith⟩
    · exact ⟨by rw [show classLo "uint16" = (0 : ℚ) from rfl]; linarith,
        by rw [show classHi "uint16" = (65535 : ℚ) from rfl]; linarith⟩
    · exact ⟨by rw [show classLo "uint32" = (0 : ℚ) from rfl]; linarith,
        by rw [show classHi "uint32" = (4294967295 : ℚ) from rfl]; linarith⟩
    · exact ⟨by rw [show classLo "uint64" = (0 : ℚ) from rfl]; linarith,
        by rw [show classHi "uint64" = (18446744073709551615 : ℚ) from rfl]; linarith⟩

/-- Witness for the amended C1 at two concrete accumulator states. -/
theorem C1_width_class_from_max_amended_witness :
    (⟨true, false, -1, 200, []⟩ : NumberField).widthClass = smallestSignedByMax 200
    ∧ (⟨true, false, 3, 300, []⟩ : NumberField).widthClass = smallestUnsignedByMax 300 :=
  ⟨C1_width_class_from_max_amended.1 ⟨true, false, -1, 200, []⟩ rfl (by decide),
    C1_width_class_from_max_amended.2.1 ⟨true, false, 3, 300, []⟩ rfl (by decide)⟩

/-! ## Fold lemmas for the Numeric accumulator (claims C6 and C7) -/

theorem NumberField.addNum_Min (f : NumberField) (b : ℕ) (h0 : 0 < f.Seen.length) :
    (f.addNum b).Min = min f.Min (decodeF64 b) := by
  unfold NumberField.addNum
  rcases lt_or_le (decodeF64 b) f.Min with h | h
  · rw [min_eq_right h.le]
    simp [h0, h]
    split_ifs <;> simp
  · rw [min_eq_left h]
    simp [h0, not_lt.mpr h]
    split_ifs <;> simp

theorem NumberField.addNum_Max (f : NumberField) (b : ℕ) (h0 : 0 < f.Seen.length)
    (hm : f.Min ≤ f.Max) : (f.addNum b).Max = max f.Max (decodeF64 b) := by
  unfold NumberField.addNum
  rcases lt_or_le (decodeF64 b) f.Min with h | h
  · rw [max_eq_left ((h.le.trans hm))]
    simp [h0, h]
    split_ifs <;> simp
  · rcases lt_or_le f.Max (decodeF64 b) with h2 | h2
    · rw [max_eq_right h2.le]
      simp [h0, not_lt.mpr h, h2]
      split_ifs <;> simp
    · rw [max_eq_left h2]
      simp [h0, not_lt.mpr h, not_lt.mpr h2]
      split_ifs <;> simp

theorem NumberField.addNum_Integral (f : NumberField) (b : ℕ) (h0 : 0 < f.Seen.length) :
    (f.addNum b).Integral = (f.Integral && isIntegral (decodeF64 b)) := by
  unfold NumberField.addNum
  simp [h0]
  split_ifs <;> simp

theorem NumberField.addNum_Float32 (f : NumberField) (b : ℕ) (h0 : 0 < f.Seen.length) :
    (f.addNum b).Float32 = (f.Float32 && isFloat32 b) := by
  unfold NumberField.addNum
  simp [h0]
  split_ifs <;> simp

theorem NumberField.addNum_Seen_ne_nil (f : NumberField) (b : ℕ) (h0 : f.Seen ≠ []) :
    (f.addNum b).Seen ≠ [] := by
  rw [NumberField.addNum_Seen]
  split_ifs
  · exact aincr_ne_nil _ _
  · exact h0

theorem NumberField.addNum_minmax_le (f : NumberField) (b : ℕ) (h0 : 0 < f.Seen.length)
    (hm : f.Min ≤ f.Max) : (f.addNum b).Min ≤ (f.addNum b).Max := by
  rw [NumberField.addNum_Min f b h0, NumberField.addNum_Max f b h0 hm]
  exact (min_le_left _ _).trans (hm.trans (le_max_left _ _))

/-- The first Add concretizes the fresh accumulator completely. -/
theorem NumberField.addNum_fresh (b : ℕ) :
    freshNumberField.addNum b =
      ⟨isIntegral (decodeF64 b), isFloat32 b, decodeF64 b, decodeF64 b,
        [(decodeF64 b, 1)]⟩ := rfl

/-- The fold characterization: over any nonempty run the four
reported statistics of the Numeric accumulator are folds of `min`,
`max` and the two flag conjunctions over the decoded values. -/
theorem foldl_addNum_spec (l : List ℕ) : ∀ f : NumberField,
    f.Seen ≠ [] → f.Min ≤ f.Max →
    (List.foldl NumberField.addNum f l).Seen ≠ []
    ∧ (List.foldl NumberField.addNum f l).Min ≤ (List.foldl NumberField.addNum f l).Max
    ∧ (List.foldl NumberField.addNum f l).Min
        = List.foldl (fun a b => min a (decodeF64 b)) f.Min l
    ∧ (List.foldl NumberField.addNum f l).Max
        = List.foldl (fun a b => max a (decodeF64 b)) f.Max l
    ∧ (List.foldl NumberField.addNum f l).Integral
        = List.foldl (fun a b => a && isIntegral (decodeF64 b)) f.Integral l
    ∧ (List.foldl NumberField.addNum f l).Float32
        = List.foldl (fun a b => a && isFloat32 b) f.Float32 l := by
  induction l with
  | nil => exact fun f h0 hm => ⟨h0, hm, rfl, rfl, rfl, rfl⟩
  | cons b t ih =>
    intro f h0 hm
    have hlen := List.length_pos.mpr h0
    simp only [List.foldl_cons]
    have hrec := ih (f.addNum b) (NumberField.addNum_Seen_ne_nil f b h0)
      (NumberField.addNum_minmax_le f b hlen hm)
    refine ⟨hrec.1, hrec.2.1, ?_, ?_, ?_, ?_⟩
    · rw [hrec.2.2.1, NumberField.addNum_Min f b hlen]
    · rw [hrec.2.2.2.1, NumberField.addNum_Max f b hlen hm]
    · rw [hrec.2.2.2.2.1, NumberField.addNum_Integral f b hlen]
    · rw [hrec.2.2.2.2.2, NumberField.addNum_Float32 f b hlen]

theorem foldl_min_le_init (l : List ℕ) : ∀ a : ℚ,
    List.foldl (fun x c => min x (decodeF64 c)) a l ≤ a := by
  induction l with
  | nil => simp
  | cons c t ih =>
    intro a
    simp only [List.foldl_cons]
    exact (ih _).trans (min_le_left _ _)

theorem foldl_min_le_mem (l : List ℕ) : ∀ (a : ℚ) (b : ℕ), b ∈ l →
    List.foldl (fun x c => min x (decodeF64 c)) a l ≤ decodeF64 b := by
  induction l with
  | nil =>
    intro a b h
    exact absurd h (List.not_mem_nil b)
  | cons c t ih =>
    intro a b hb
    simp only [List.foldl_cons]
    rcases List.mem_cons.mp hb with h | h
    · subst h
      exact (foldl_min_le_init t _).trans (min_le_right _ _)
    · exact ih _ b h

theorem foldl_min_attained (l : List ℕ) : ∀ a : ℚ,
    List.foldl (fun x c => min x (decodeF64 c)) a l = a
    ∨ ∃ b ∈ l, List.foldl (fun x c => min x (decodeF64 c)) a l = decodeF64 b := by
  induction l with
  | nil => exact fun a => Or.inl rfl
  | cons c t ih =>
    intro a
    rcases ih (min a (decodeF64 c)) with h | ⟨b, hb, h⟩
    · rcases min_choice a (decodeF64 c) with hc | hc
      · left
        rw [List.foldl_cons, h, hc]
      · right
        exact ⟨c, List.mem_cons_self _ _, by rw [List.foldl_cons, h, hc]⟩
    · right
      exact ⟨b, List.mem_cons_of_mem _ hb, by rw [List.foldl_cons, h]⟩

theorem foldl_max_ge_init (l : List ℕ) : ∀ a : ℚ,
    a ≤ List.foldl (fun x c => max x (decodeF64 c)) a l := by
  induction l with
  | nil => simp
  | cons c t ih =>
    intro a
    simp only [List.foldl_cons]
    exact (le_max_left _ _).trans (ih _)

theorem foldl_max_ge_mem (l : List ℕ) : ∀ (a : ℚ) (b : ℕ), b ∈ l →
    decodeF64 b ≤ List.foldl (fun x c => max x (decodeF64 c)) a l := by
  induction l with
  | nil =>
    intro a b h
    exact absurd h (List.not_mem_nil b)
  | cons c t ih =>
    intro a b hb
    simp only [List.foldl_cons]
    rcases List.mem_cons.mp hb with h | h
    · subst h
      exact (le_max_right _ _).trans (foldl_max_ge_init t _)
    · exact ih _ b h

theorem foldl_max_attained (l : List ℕ) : ∀ a : ℚ,
    List.foldl (fun x c => max x (decodeF64 c)) a l = a
    ∨ ∃ b ∈ l, List.foldl (fun x c => max x (decodeF64 c)) a l = decodeF64 b := by
  induction l with
  | nil => exact fun a => Or.inl rfl
  | cons c t ih =>
    intro a
    rcases ih (max a (decodeF64 c)) with h | ⟨b, hb, h⟩
    · rcases max_choice a (decodeF64 c) with hc | hc
      · left
        rw [List.foldl_cons, h, hc]
      · right
        exact ⟨c, List.mem_cons_self _ _, by rw [List.foldl_cons, h, hc]⟩
    · right
      exact ⟨b, List.mem_cons_of_mem _ hb, by rw [List.foldl_cons, h]⟩

theorem foldl_and_eq (p : ℕ → Bool) (l : List ℕ) : ∀ i : Bool,
    List.foldl (fun x c => x && p c) i l = (i && l.all p) := by
  induction l with
  | nil => simp
  | cons c t ih =>
    intro i
    simp [List.foldl_cons, ih, Bool.and_assoc]

theorem perm_all_eq (p : ℕ → Bool) {l l' : List ℕ} (h : l.Perm l') :
    l.all p = l'.all p := by
  induction h with
  | nil => rfl
  | cons x h ih => simp [List.all_cons, ih]
  | swap x y t => simp [List.all_cons, ← Bool.and_assoc, Bool.and_comm]
  | trans h1 h2 ih1 ih2 => rw [ih1, ih2]

theorem foldl_min_head_spec (a : ℕ) (t : List ℕ) :
    (∀ b ∈ a :: t, List.foldl (fun x c => min x (decodeF64 c)) (decodeF64 a) t ≤ decodeF64 b)
    ∧ ∃ b ∈ a :: t,
        List.foldl (fun x c => min x (decodeF64 c)) (decodeF64 a) t = decodeF64 b := by
  constructor
  · intro b hb
    rcases List.mem_cons.mp hb with h | h
    · subst h
      exact foldl_min_le_init t _
    · exact foldl_min_le_mem t _ b h
  · rcases foldl_min_attained t (decodeF64 a) with h | ⟨b, hb, h⟩
    · exact ⟨a, List.mem_cons_self _ _, h⟩
    · exact ⟨b, List.mem_cons_of_mem _ hb, h⟩

theorem foldl_max_head_spec (a : ℕ) (t : List ℕ) :
    (∀ b ∈ a :: t, decodeF64 b ≤ List.foldl (fun x c => max x (decodeF64 c)) (decodeF64 a) t)
    ∧ ∃ b ∈ a :: t,
        List.foldl (fun x c => max x (decodeF64 c)) (decodeF64 a) t = decodeF64 b := by
  constructor
  · intro b hb
    rcases List.mem_cons.mp hb with h | h
    · subst h
      exact foldl_max_ge_init t _
    · exact foldl_max_ge_mem t _ b h
  · rcases foldl_max_attained t (decodeF64 a) with h | ⟨b, hb, h⟩
    · exact ⟨a, List.mem_cons_self _ _, h⟩
    · exact ⟨b, List.mem_cons_of_mem _ hb, h⟩

theorem foldl_min_perm (a a' : ℕ) (t t' : List ℕ) (h : (a :: t).Perm (a' :: t')) :
    List.foldl (fun x c => min x (decodeF64 c)) (decodeF64 a) t
      = List.foldl (fun x c => min x (decodeF64 c)) (decodeF64 a') t' := by
  obtain ⟨hle, b, hb, heq⟩ := foldl_min_head_spec a t
  obtain ⟨hle2, b2, hb2, heq2⟩ := foldl_min_head_spec a' t'
  apply le_antisymm
  · rw [heq2]
    exact hle b2 (h.mem_iff.mpr hb2)
  · rw [heq]
    exact hle2 b (h.mem_iff.mp hb)

theorem foldl_max_perm (a a' : ℕ) (t t' : List ℕ) (h : (a :: t).Perm (a' :: t')) :
    List.foldl (fun x c => max x (decodeF64 c)) (decodeF64 a) t
      = List.foldl (fun x c => max x (decodeF64 c)) (decodeF64 a') t' := by
  obtain ⟨hge, b, hb, heq⟩ := foldl_max_head_spec a t
  obtain ⟨hge2, b2, hb2, heq2⟩ := foldl_max_head_spec a' t'
  apply le_antisymm
  · rw [heq]
    exact hge2 b (h.mem_iff.mp hb)
  · rw [heq2]
    exact hge b2 (h.mem_iff.mpr hb2)

/-- Claim C6: after every Add of a nonempty run of numeric values
into a fresh Numeric accumulator, `Min` is a lower bound and `Max` an
upper bound of all decoded values added so far, and both are attained
by some added value (they are the minimum and maximum of the added
multiset).  Quantifying over all runs covers every prefix, hence
"after every Add". -/
theorem C6_running_min_max (b0 : ℕ) (l : List ℕ) :
    (∀ b ∈ b0 :: l,
      (List.foldl NumberField.addNum freshNumberField (b0 :: l)).Min ≤ decodeF64 b
      ∧ decodeF64 b ≤ (List.foldl NumberField.addNum freshNumberField (b0 :: l)).Max)
    ∧ (∃ b ∈ b0 :: l,
        (List.foldl NumberField.addNum freshNumberField (b0 :: l)).Min = decodeF64 b)
    ∧ (∃ b ∈ b0 :: l,
        (List.foldl NumberField.addNum freshNumberField (b0 :: l)).Max = decodeF64 b) := by
  have hspec := foldl_addNum_spec l (freshNumberField.addNum b0)
    (by rw [NumberField.addNum_fresh]; simp) (by rw [NumberField.addNum_fresh])
  have hmin0 : (freshNumberField.addNum b0).Min = decodeF64 b0 := by
    rw [NumberField.addNum_fresh]
  have hmax0 : (freshNumberField.addNum b0).Max = decodeF64 b0 := by
    rw [NumberField.addNum_fresh]
  simp only [List.foldl_cons]
  refine ⟨fun b hb => ⟨?_, ?_⟩, ?_, ?_⟩
  · rw [hspec.2.2.1, hmin0]
    exact (foldl_min_head_spec b0 l).1 b hb
  · rw [hspec.2.2.2.1, hmax0]
    exact (foldl_max_head_spec b0 l).1 b hb
  · rw [hspec.2.2.1, hmin0]
    exact (foldl_min_head_spec b0 l).2
  · rw [hspec.2.2.2.1, hmax0]
    exact (foldl_max_head_spec b0 l).2

/-- Witness for C6 on the concrete run `[1.0, -1000.0]`. -/
theorem C6_running_min_max_witness :
    (List.foldl NumberField.addNum freshNumberField [bitsOne, bitsNeg1000]).Min
      ≤ decodeF64 bitsNeg1000 :=
  ((C6_running_min_max bitsOne [bitsNeg1000]).1 bitsNeg1000 (by simp)).1

/-- Claim C7: the reported width class of a Numeric accumulator is a
function of the final multiset of added values only — adding any
permutation of the same values to a fresh accumulator yields the same
width class. -/
theorem C7_width_class_order_invariant (l l' : List ℕ) (h : l.Perm l') :
    (List.foldl NumberField.addNum freshNumberField l).widthClass
      = (List.foldl NumberField.addNum freshNumberField l').widthClass := by
  cases l with
  | nil =>
    rw [List.Perm.eq_nil h.symm]
  | cons a t =>
    cases l' with
    | nil =>
      have h2 := List.Perm.eq_nil h
      exact absurd h2 (by simp)
    | cons a2 t2 =>
      simp only [List.foldl_cons]
      have hs1 := foldl_addNum_spec t (freshNumberField.addNum a)
        (by rw [NumberField.addNum_fresh]; simp) (by rw [NumberField.addNum_fresh])
      have hs2 := foldl_addNum_spec t2 (freshNumberField.addNum a2)
        (by rw [NumberField.addNum_fresh]; simp) (by rw [NumberField.addNum_fresh])
      unfold NumberField.widthClass
      rw [hs1.2.2.1, hs1.2.2.2.1, hs1.2.2.2.2.1, hs1.2.2.2.2.2,
        hs2.2.2.1, hs2.2.2.2.1, hs2.2.2.2.2.1, hs2.2.2.2.2.2]
      simp only [NumberField.addNum_fresh]
      have hI : List.foldl (fun x c => x && isIntegral (decodeF64 c))
            (isIntegral (decodeF64 a)) t
          = List.foldl (fun x c => x && isIntegral (decodeF64 c))
            (isIntegral (decodeF64 a2)) t2 := by
        rw [foldl_and_eq, foldl_and_eq]
        have hall := perm_all_eq (fun c => isIntegral (decodeF64 c)) h
        rw [List.all_cons, List.all_cons] at hall
        exact hall
      have hF : List.foldl (fun x c => x && isFloat32 c) (isFloat32 a) t
          = List.foldl (fun x c => x && isFloat32 c) (isFloat32 a2) t2 := by
        rw [foldl_and_eq, foldl_and_eq]
        have hall := perm_all_eq (fun c => isFloat32 c) h
        rw [List.all_cons, List.all_cons] at hall
        exact hall
      rw [hI, hF, foldl_min_perm a a2 t t2 h, foldl_max_perm a a2 t t2 h]

/-- Witness for C7 on the two orders of `[1.0, -1000.0]`. -/
theorem C7_width_class_order_invariant_witness :
    (List.foldl NumberField.addNum freshNumberField [bitsOne, bitsNeg1000]).widthClass
      = (List.foldl NumberField.addNum freshNumberField [bitsNeg1000, bitsOne]).widthClass :=
  C7_width_class_order_invariant _ _ (List.Perm.swap _ _ _)

/-- Witness for C4: the mask equation applied at a concrete pattern,
and the non-representability of `1/10` applied at the pattern of
`1.0`. -/
theorem C4_isFloat32_bitmask_test_witness :
    isFloat32 1073741824 = decide ((1073741824 : ℕ) % 2 ^ 29 = 0)
    ∧ decodeF64 bitsOne ≠ 1 / 10 :=
  ⟨C4_isFloat32_bitmask_test.2.2.2.1 1073741824,
    C4_isFloat32_bitmask_test.2.1.2.1 bitsOne⟩

end SoftwareMentions
